import Mathlib

/-!
Verification of the data-lifecycle and session-protocol layer of a
self-play training pipeline (`main.py`).

The embedding models, directly from the source:
 - the GTP protocol loop (`gtp`, main.py lines 47-68);
 - the windowed, deduplicating aggregator (`gather`, main.py lines 184-227),
   together with a filesystem-operation trace for its persistence step;
 - the training-window selection (`train_dir` / `train`, main.py lines 88-108);
 - the holdout routing of one self-play game (`selfplay`, main.py lines 166-181).

Python strings read from the interactive channel are modelled as `List Char`
so that splitting on the newline marker is an executable structural function.
-/

namespace Minigo

/-! ## Protocol loop (`gtp`, main.py lines 47-68)

The loop body is:
```
while not engine.disconnect:
    inpt = input()
    try:
        cmd_list = inpt.split("\n")
    except:
        cmd_list = [inpt]
    for cmd in cmd_list:
        engine_reply = engine.send(cmd)
        sys.stdout.write(engine_reply)
        sys.stdout.flush()
```
`input()` raises `EOFError` on a closed channel and `UnicodeDecodeError` on a
decode failure; neither is inside the `try`, so both propagate.  The `except`
branch is unreachable: `str.split` on a string never raises.  The input
channel is modelled as a list of `Option Line`: `some l` is a successfully
read line, `none` is a read that fails to decode, and the end of the list is
channel closure.
-/

/-- A Python string from the interactive channel, as its character list. -/
abbrev Line := List Char

/-- Observable events of one protocol session, in order of occurrence. -/
inductive GtpEvent
  | readLine (l : Line)
  | send (cmd : Line) (reply : Line)
  | write (s : Line)
  | flush
deriving DecidableEq

/-- How a session terminates: the engine's disconnect signal, a closed
channel (`EOFError` escaping `input()`), or a decode failure
(`UnicodeDecodeError` escaping `input()`). -/
inductive GtpOutcome
  | disconnected
  | channelClosed
  | decodeFailure
deriving DecidableEq

/-- Python `inpt.split("\x5cn")` for a single-character separator: splits the
line at every newline character, keeping empty pieces, and always returns at
least one piece (the whole line when no newline occurs). -/
def splitNl : Line → List Line
  | [] => [[]]
  | c :: cs =>
      if c = '\n' then [] :: splitNl cs
      else
        match splitNl cs with
        | [] => [[c]]
        | w :: ws => (c :: w) :: ws

/-- The `for cmd in cmd_list` body (main.py lines 65-68): dispatch each
sub-command to the engine in order, writing and flushing its reply
immediately, threading the engine state. -/
def sendAll {σ : Type} (send : σ → Line → σ × Line) : σ → List Line → σ × List GtpEvent
  | s, [] => (s, [])
  | s, c :: cs =>
      let p := send s c
      let rest := sendAll send p.1 cs
      (rest.1, .send c p.2 :: .write p.2 :: .flush :: rest.2)

/-- The `while not engine.disconnect` loop of `gtp` (main.py lines 57-68),
as a trace-producing interpreter over the finite input channel. -/
def gtp {σ : Type} (send : σ → Line → σ × Line) (disconnect : σ → Bool) :
    σ → List (Option Line) → List GtpEvent × GtpOutcome
  | s, inputs =>
      if disconnect s then ([], .disconnected)
      else
        match inputs with
        | [] => ([], .channelClosed)
        | none :: _ => ([], .decodeFailure)
        | some l :: rest =>
            let p := sendAll send s (splitNl l)
            let q := gtp send disconnect p.1 rest
            (.readLine l :: (p.2 ++ q.1), q.2)

/-- Commands dispatched to the engine, in trace order. -/
def sentCmds (evs : List GtpEvent) : List Line :=
  evs.filterMap fun e =>
    match e with
    | .send c _ => some c
    | _ => none

/-- Lines read from the channel, in trace order. -/
def linesRead (evs : List GtpEvent) : List Line :=
  evs.filterMap fun e =>
    match e with
    | .readLine l => some l
    | _ => none

/-- Every dispatched command is immediately followed by the write of its own
reply and then a flush: no pipelining, no reordering, one reply per command. -/
def RepliesImmediate (evs : List GtpEvent) : Prop :=
  ∀ i c r, evs[i]? = some (GtpEvent.send c r) →
    evs[i + 1]? = some (GtpEvent.write r) ∧ evs[i + 2]? = some GtpEvent.flush

/-- Every read of a further input line is immediately preceded by a flush:
all replies to the previous line are written and flushed before the next
line is read. -/
def FlushBeforeRead (evs : List GtpEvent) : Prop :=
  ∀ i l, evs[i]? = some (GtpEvent.readLine l) →
    i = 0 ∨ evs[i - 1]? = some GtpEvent.flush

theorem splitNl_ne_nil (l : Line) : splitNl l ≠ [] := by
  cases l with
  | nil => simp [splitNl]
  | cons c cs =>
      simp only [splitNl]
      split
      · simp
      · split <;> simp

variable {σ : Type}

theorem sentCmds_sendAll (send : σ → Line → σ × Line) (s : σ) (cs : List Line) :
    sentCmds (sendAll send s cs).2 = cs := by
  induction cs generalizing s with
  | nil => rfl
  | cons c cs ih => simp [sendAll, sentCmds] at ih ⊢; exact ih _

theorem linesRead_sendAll (send : σ → Line → σ × Line) (s : σ) (cs : List Line) :
    linesRead (sendAll send s cs).2 = [] := by
  induction cs generalizing s with
  | nil => rfl
  | cons c cs ih => simp [sendAll, linesRead] at ih ⊢; exact ih _

theorem readLine_notMem_sendAll (send : σ → Line → σ × Line) (s : σ) (cs : List Line)
    (l : Line) : GtpEvent.readLine l ∉ (sendAll send s cs).2 := by
  induction cs generalizing s with
  | nil => simp [sendAll]
  | cons c cs ih => simp [sendAll]; exact ih _

theorem sendAll_ne_nil (send : σ → Line → σ × Line) (s : σ) (c : Line) (cs : List Line) :
    (sendAll send s (c :: cs)).2 ≠ [] := by
  simp [sendAll]

theorem sendAll_ends_flush (send : σ → Line → σ × Line) (s : σ) (c : Line) (cs : List Line) :
    ∃ evs₀, (sendAll send s (c :: cs)).2 = evs₀ ++ [GtpEvent.flush] := by
  induction cs generalizing s c with
  | nil => exact ⟨[_, _], rfl⟩
  | cons c' cs ih =>
      obtain ⟨evs₀, h⟩ := ih (send s c).1 c'
      refine ⟨GtpEvent.send c (send s c).2 :: GtpEvent.write (send s c).2 ::
        GtpEvent.flush :: evs₀, ?_⟩
      have hu : (sendAll send s (c :: c' :: cs)).2 =
          GtpEvent.send c (send s c).2 :: GtpEvent.write (send s c).2 ::
            GtpEvent.flush :: (sendAll send (send s c).1 (c' :: cs)).2 := rfl
      rw [hu, h]
      simp

theorem repliesImmediate_sendAll (send : σ → Line → σ × Line) (s : σ) (cs : List Line) :
    RepliesImmediate (sendAll send s cs).2 := by
  induction cs generalizing s with
  | nil => intro i c r h; simp [sendAll] at h
  | cons c cs ih =>
      intro i c' r h
      match i with
      | 0 =>
          have h0 : GtpEvent.send c (send s c).2 = GtpEvent.send c' r := by
            simpa [sendAll] using h
          cases h0
          simp [sendAll]
      | 1 => simp [sendAll] at h
      | 2 => simp [sendAll] at h
      | (n + 3) =>
          simp only [sendAll, List.getElem?_cons_succ] at h ⊢
          exact ih _ n c' r h

theorem repliesImmediate_append {evs evs' : List GtpEvent}
    (h1 : RepliesImmediate evs) (h2 : RepliesImmediate evs') :
    RepliesImmediate (evs ++ evs') := by
  intro i c r h
  by_cases hi : i < evs.length
  · rw [List.getElem?_append_left hi] at h
    obtain ⟨hw, hf⟩ := h1 i c r h
    have hw1 : i + 1 < evs.length := by
      rcases List.getElem?_eq_some_iff.mp hw with ⟨h', _⟩; exact h'
    have hf2 : i + 2 < evs.length := by
      rcases List.getElem?_eq_some_iff.mp hf with ⟨h', _⟩; exact h'
    rw [List.getElem?_append_left hw1, List.getElem?_append_left hf2]
    exact ⟨hw, hf⟩
  · push_neg at hi
    rw [List.getElem?_append_right hi] at h
    obtain ⟨hw, hf⟩ := h2 (i - evs.length) c r h
    have e1 : i + 1 - evs.length = i - evs.length + 1 := by omega
    have e2 : i + 2 - evs.length = i - evs.length + 2 := by omega
    rw [List.getElem?_append_right (by omega), e1,
        List.getElem?_append_right (by omega), e2]
    exact ⟨hw, hf⟩

theorem repliesImmediate_cons_readLine {evs : List GtpEvent} (l : Line)
    (h : RepliesImmediate evs) : RepliesImmediate (GtpEvent.readLine l :: evs) := by
  intro i c r hi
  match i with
  | 0 => simp at hi
  | (n + 1) =>
      simp only [List.getElem?_cons_succ] at hi ⊢
      exact h n c r hi

theorem sentCmds_append (a b : List GtpEvent) : sentCmds (a ++ b) = sentCmds a ++ sentCmds b := by
  simp [sentCmds]

theorem linesRead_append (a b : List GtpEvent) :
    linesRead (a ++ b) = linesRead a ++ linesRead b := by
  simp [linesRead]

theorem sentCmds_cons_readLine (l : Line) (evs : List GtpEvent) :
    sentCmds (GtpEvent.readLine l :: evs) = sentCmds evs := by
  simp [sentCmds]

theorem linesRead_cons_readLine (l : Line) (evs : List GtpEvent) :
    linesRead (GtpEvent.readLine l :: evs) = l :: linesRead evs := by
  simp [linesRead]

theorem gtp_eq_disconnected (send : σ → Line → σ × Line) (disconnect : σ → Bool) (s : σ)
    (inputs : List (Option Line)) (h : disconnect s = true) :
    gtp send disconnect s inputs = ([], GtpOutcome.disconnected) := by
  cases inputs with
  | nil => simp [gtp, h]
  | cons x rest => cases x <;> simp [gtp, h]

theorem gtp_eq_closed (send : σ → Line → σ × Line) (disconnect : σ → Bool) (s : σ)
    (h : disconnect s = false) :
    gtp send disconnect s [] = ([], GtpOutcome.channelClosed) := by
  simp [gtp, h]

theorem gtp_eq_decodeFailure (send : σ → Line → σ × Line) (disconnect : σ → Bool) (s : σ)
    (rest : List (Option Line)) (h : disconnect s = false) :
    gtp send disconnect s (none :: rest) = ([], GtpOutcome.decodeFailure) := by
  simp [gtp, h]

theorem gtp_eq_line (send : σ → Line → σ × Line) (disconnect : σ → Bool) (s : σ)
    (l : Line) (rest : List (Option Line)) (h : disconnect s = false) :
    gtp send disconnect s (some l :: rest) =
      (GtpEvent.readLine l ::
        ((sendAll send s (splitNl l)).2 ++
          (gtp send disconnect (sendAll send s (splitNl l)).1 rest).1),
       (gtp send disconnect (sendAll send s (splitNl l)).1 rest).2) := by
  conv_lhs => rw [gtp]
  simp [h]

theorem repliesImmediate_gtp (send : σ → Line → σ × Line) (disconnect : σ → Bool)
    (s : σ) (inputs : List (Option Line)) :
    RepliesImmediate (gtp send disconnect s inputs).1 := by
  induction inputs generalizing s with
  | nil =>
      cases hd : disconnect s with
      | true => rw [gtp_eq_disconnected _ _ _ _ hd]; intro i c r h; simp at h
      | false => rw [gtp_eq_closed _ _ _ hd]; intro i c r h; simp at h
  | cons x rest ih =>
      cases hd : disconnect s with
      | true => rw [gtp_eq_disconnected _ _ _ _ hd]; intro i c r h; simp at h
      | false =>
          cases x with
          | none => rw [gtp_eq_decodeFailure _ _ _ _ hd]; intro i c r h; simp at h
          | some l =>
              rw [gtp_eq_line _ _ _ _ _ hd]
              exact repliesImmediate_cons_readLine l
                (repliesImmediate_append (repliesImmediate_sendAll send s (splitNl l)) (ih _))

theorem sentCmds_gtp (send : σ → Line → σ × Line) (disconnect : σ → Bool)
    (s : σ) (inputs : List (Option Line)) :
    sentCmds (gtp send disconnect s inputs).1 =
      (linesRead (gtp send disconnect s inputs).1).flatMap splitNl := by
  induction inputs generalizing s with
  | nil =>
      cases hd : disconnect s with
      | true => rw [gtp_eq_disconnected _ _ _ _ hd]; rfl
      | false => rw [gtp_eq_closed _ _ _ hd]; rfl
  | cons x rest ih =>
      cases hd : disconnect s with
      | true => rw [gtp_eq_disconnected _ _ _ _ hd]; rfl
      | false =>
          cases x with
          | none => rw [gtp_eq_decodeFailure _ _ _ _ hd]; rfl
          | some l =>
              rw [gtp_eq_line _ _ _ _ _ hd]
              rw [sentCmds_cons_readLine, sentCmds_append, sentCmds_sendAll,
                linesRead_cons_readLine, linesRead_append, linesRead_sendAll, ih]
              simp

theorem sendAll_getLast_flush (send : σ → Line → σ × Line) (s : σ) (c : Line)
    (cs : List Line) :
    (sendAll send s (c :: cs)).2[(sendAll send s (c :: cs)).2.length - 1]? =
      some GtpEvent.flush := by
  obtain ⟨evs₀, h⟩ := sendAll_ends_flush send s c cs
  rw [h, ← List.getLast?_eq_getElem?, List.getLast?_concat]

theorem flushBeforeRead_gtp (send : σ → Line → σ × Line) (disconnect : σ → Bool)
    (s : σ) (inputs : List (Option Line)) :
    FlushBeforeRead (gtp send disconnect s inputs).1 := by
  induction inputs generalizing s with
  | nil =>
      cases hd : disconnect s with
      | true => rw [gtp_eq_disconnected _ _ _ _ hd]; intro i l h; simp at h
      | false => rw [gtp_eq_closed _ _ _ hd]; intro i l h; simp at h
  | cons x rest ih =>
      cases hd : disconnect s with
      | true => rw [gtp_eq_disconnected _ _ _ _ hd]; intro i l h; simp at h
      | false =>
          cases x with
          | none => rw [gtp_eq_decodeFailure _ _ _ _ hd]; intro i l h; simp at h
          | some l =>
              rw [gtp_eq_line _ _ _ _ _ hd]
              intro i l₀ h
              match i with
              | 0 => exact Or.inl rfl
              | (n + 1) =>
                  right
                  simp only [Nat.add_sub_cancel]
                  simp only [List.getElem?_cons_succ] at h
                  by_cases hn : n < (sendAll send s (splitNl l)).2.length
                  · rw [List.getElem?_append_left hn] at h
                    exact absurd (List.getElem?_mem h)
                      (readLine_notMem_sendAll send s (splitNl l) l₀)
                  · push_neg at hn
                    rw [List.getElem?_append_right hn] at h
                    have hpos : 0 < (sendAll send s (splitNl l)).2.length := by
                      apply List.length_pos.mpr
                      cases hsp : splitNl l with
                      | nil => exact absurd hsp (splitNl_ne_nil l)
                      | cons c cs => exact sendAll_ne_nil send s c cs
                    rcases ih (sendAll send s (splitNl l)).1
                        (n - (sendAll send s (splitNl l)).2.length) l₀ h with h0 | hflush
                    · have hne : n = (sendAll send s (splitNl l)).2.length := by omega
                      have hn1 : n = (n - 1) + 1 := by omega
                      rw [hn1, List.getElem?_cons_succ,
                        List.getElem?_append_left (by omega)]
                      cases hsp : splitNl l with
                      | nil => exact absurd hsp (splitNl_ne_nil l)
                      | cons c cs =>
                          have hlast := sendAll_getLast_flush send s c cs
                          rw [hsp] at hne
                          rw [show n - 1 = (sendAll send s (c :: cs)).2.length - 1 from by omega]
                          exact hlast
                    · by_cases hz : n - (sendAll send s (splitNl l)).2.length = 0
                      · rw [hz] at hflush
                        rw [show (0 : Nat) - 1 = 0 from rfl, ← hz] at hflush
                        rw [hflush] at h
                        simp at h
                      · have hge : (sendAll send s (splitNl l)).2.length + 1 ≤ n := by omega
                        have hn1 : n = (n - 1) + 1 := by omega
                        rw [hn1, List.getElem?_cons_succ,
                          List.getElem?_append_right (by omega)]
                        rw [show n - 1 - (sendAll send s (splitNl l)).2.length =
                          n - (sendAll send s (splitNl l)).2.length - 1 from by omega]
                        exact hflush

/-- A demo engine for witnesses: state is a disconnect flag, set once the
command `quit` is dispatched; every command is answered with `= ok`. -/
def demoSend : Bool → Line → Bool × Line :=
  fun s c => (s || decide (c = String.toList "quit"), String.toList "= ok")

/-- Disconnect signal of the demo engine: its state flag. -/
def demoDisc : Bool → Bool := fun s => s

/-- A trivial engine that never disconnects and replies `= ok` to everything. -/
def plainSend : Unit → Line → Unit × Line := fun _ _ => ((), String.toList "= ok")

/-- Disconnect signal of the trivial engine: never. -/
def plainDisc : Unit → Bool := fun _ => false

/-- Claim C4: every input line read by the loop is split on the newline
marker into an ordered list of sub-commands; the commands dispatched to the
engine are exactly the concatenation, in order, of those lists; each
dispatched command's reply is written and flushed immediately after the
dispatch; and each further line read is immediately preceded by a flush, so
every reply is emitted before the next input line is read. -/
theorem gtp_protocol_ordering (send : σ → Line → σ × Line) (disconnect : σ → Bool)
    (s : σ) (inputs : List (Option Line)) :
    sentCmds (gtp send disconnect s inputs).1 =
      (linesRead (gtp send disconnect s inputs).1).flatMap splitNl
    ∧ RepliesImmediate (gtp send disconnect s inputs).1
    ∧ FlushBeforeRead (gtp send disconnect s inputs).1 :=
  ⟨sentCmds_gtp send disconnect s inputs,
   repliesImmediate_gtp send disconnect s inputs,
   flushBeforeRead_gtp send disconnect s inputs⟩

/-- Witness for C4 at a batch of three newline-joined commands. -/
theorem gtp_protocol_ordering_witness :
    sentCmds (gtp plainSend plainDisc () [some (String.toList "a\nb\nc")]).1 =
      (linesRead (gtp plainSend plainDisc () [some (String.toList "a\nb\nc")]).1).flatMap splitNl
    ∧ RepliesImmediate (gtp plainSend plainDisc () [some (String.toList "a\nb\nc")]).1
    ∧ FlushBeforeRead (gtp plainSend plainDisc () [some (String.toList "a\nb\nc")]).1 :=
  gtp_protocol_ordering plainSend plainDisc () [some (String.toList "a\nb\nc")]

/-- Claim C10: the disconnect signal is consulted only between input lines.
If a line's sub-commands flip the engine into the disconnected state, every
remaining sub-command of that line is still dispatched, with its reply
written and flushed, and only then does the loop terminate with the
disconnected outcome, reading nothing further. -/
theorem gtp_disconnect_checked_between_lines (send : σ → Line → σ × Line)
    (disconnect : σ → Bool) (s : σ) (l : Line) (rest : List (Option Line))
    (h0 : disconnect s = false)
    (h1 : disconnect (sendAll send s (splitNl l)).1 = true) :
    gtp send disconnect s (some l :: rest) =
      (GtpEvent.readLine l :: (sendAll send s (splitNl l)).2, GtpOutcome.disconnected)
    ∧ sentCmds (GtpEvent.readLine l :: (sendAll send s (splitNl l)).2) = splitNl l
    ∧ RepliesImmediate (GtpEvent.readLine l :: (sendAll send s (splitNl l)).2) := by
  refine ⟨?_, ?_, ?_⟩
  · rw [gtp_eq_line _ _ _ _ _ h0, gtp_eq_disconnected _ _ _ _ h1]
    simp
  · rw [sentCmds_cons_readLine, sentCmds_sendAll]
  · exact repliesImmediate_cons_readLine l (repliesImmediate_sendAll send s (splitNl l))

/-- Witness for C10: the line `quit` followed by `version` in one input
batch; `version` is still dispatched after `quit` triggers disconnect. -/
theorem gtp_disconnect_checked_between_lines_witness :
    (gtp demoSend demoDisc false [some (String.toList "quit\nversion")] =
      (GtpEvent.readLine (String.toList "quit\nversion") ::
        (sendAll demoSend false (splitNl (String.toList "quit\nversion"))).2,
       GtpOutcome.disconnected)
     ∧ sentCmds (GtpEvent.readLine (String.toList "quit\nversion") ::
        (sendAll demoSend false (splitNl (String.toList "quit\nversion"))).2) =
        splitNl (String.toList "quit\nversion")
     ∧ RepliesImmediate (GtpEvent.readLine (String.toList "quit\nversion") ::
        (sendAll demoSend false (splitNl (String.toList "quit\nversion"))).2))
    ∧ splitNl (String.toList "quit\nversion") =
        [String.toList "quit", String.toList "version"] :=
  ⟨gtp_disconnect_checked_between_lines demoSend demoDisc false
      (String.toList "quit\nversion") [] (by decide) (by decide),
   by decide⟩

/-- Claim C5 counterexample: a closed channel (exhausted input) or a decode
failure during the blocking read ends the session with an aborting outcome,
not via the engine's disconnect signal, and no best-effort single-line
command is dispatched. -/
theorem gtp_read_failure_aborts_session :
    gtp plainSend plainDisc () [] = ([], GtpOutcome.channelClosed)
    ∧ gtp plainSend plainDisc () [none] = ([], GtpOutcome.decodeFailure)
    ∧ GtpOutcome.channelClosed ≠ GtpOutcome.disconnected
    ∧ GtpOutcome.decodeFailure ≠ GtpOutcome.disconnected := by
  decide

/-- Claim C5 amended: a failing read (closed channel or decode failure)
aborts the session, because only the splitting of an already-read line is
guarded by the try/except, and that split cannot fail.  The content of a
successfully read line never aborts the session: when every read succeeds
and the engine never disconnects, every input line is read and processed and
the session ends only at the channel's end. -/
theorem gtp_abort_only_at_failed_read (send : σ → Line → σ × Line)
    (disconnect : σ → Bool) (s : σ) (inputs : List (Option Line))
    (hall : ∀ x ∈ inputs, x ≠ none)
    (hdisc : ∀ t, disconnect t = false) :
    (gtp send disconnect s inputs).2 = GtpOutcome.channelClosed
    ∧ linesRead (gtp send disconnect s inputs).1 = inputs.filterMap id := by
  revert hall
  induction inputs generalizing s with
  | nil =>
      intro _
      rw [gtp_eq_closed _ _ _ (hdisc s)]
      exact ⟨rfl, rfl⟩
  | cons x rest ih =>
      intro hall
      cases x with
      | none => exact absurd rfl (hall none (by simp))
      | some l =>
          rw [gtp_eq_line _ _ _ _ _ (hdisc s)]
          have hrest := ih (sendAll send s (splitNl l)).1
            (fun y hy => hall y (List.mem_cons_of_mem _ hy))
          refine ⟨hrest.1, ?_⟩
          rw [linesRead_cons_readLine, linesRead_append, linesRead_sendAll, hrest.2]
          simp

/-- Witness for the amended C5: two well-formed lines are both processed and
the session ends at channel close. -/
theorem gtp_abort_only_at_failed_read_witness :
    ((gtp plainSend plainDisc () [some (String.toList "a"), some (String.toList "b")]).2 =
        GtpOutcome.channelClosed
     ∧ linesRead
        (gtp plainSend plainDisc () [some (String.toList "a"), some (String.toList "b")]).1 =
        [some (String.toList "a"), some (String.toList "b")].filterMap id)
    ∧ [some (String.toList "a"), some (String.toList "b")].filterMap id =
        [String.toList "a", String.toList "b"] :=
  ⟨gtp_abort_only_at_failed_read plainSend plainDisc ()
      [some (String.toList "a"), some (String.toList "b")] (by decide) (fun t => rfl),
   by decide⟩

/-! ## Windowed aggregator (`gather`, main.py lines 184-227)

The loop body is:
```
for model_name, record_files in sorted(model_gamedata.items()):
    if set(record_files) <= already_processed:
        continue
    for i, example_batch in enumerate(
            tqdm(preprocessing.shuffle_tf_examples(examples_per_record, record_files))):
        output_record = os.path.join(output_directory,
                                     '[model_name]-[i].tfrecord.zz')
        preprocessing.write_tf_examples(output_record, example_batch, serialize=False)
    already_processed.update(record_files)
```
followed by persisting `'\n'.join(sorted(already_processed))` to `meta.txt`.

The embedding starts from `model_gamedata` (an association list of model
name to globbed record-file paths, in the sorted iteration order of the
source) and the loaded ledger set.  `preprocessing.shuffle_tf_examples` is
external to this file's source; only how many batches it yields matters to
the claims, so it is abstracted as an arbitrary function `numBatches` of the
record-file list, and the run is verified for every such function.  The
state records, besides the ledger, the exact file lists handed to the
shuffler (`fed`) and the chunk files written (`chunks`). -/

/-- A file created in the gather output directory: a chunk
`[model]-[i].tfrecord.zz`, or the ledger file `meta.txt`. -/
inductive OutPath
  | chunk (model : String) (idx : Nat)
  | meta
deriving DecidableEq

/-- Aggregator state: file lists fed to the shuffler, chunk files written,
and the in-memory ledger set (`already_processed`). -/
structure GatherState where
  fed : List (String × List String)
  chunks : List OutPath
  ledger : Finset String
deriving DecidableEq

/-- One iteration of the `for model_name, record_files` loop: skip the
generation when its record set is a subset of the ledger, otherwise feed the
entire record list to the shuffler, write one chunk per yielded batch, and
add all the generation's record files to the ledger. -/
def gatherStep (numBatches : List String → Nat) (st : GatherState)
    (entry : String × List String) : GatherState :=
  if entry.2.toFinset ⊆ st.ledger then st
  else
    { fed := st.fed ++ [entry],
      chunks := st.chunks ++
        (List.range (numBatches entry.2)).map fun i => OutPath.chunk entry.1 i,
      ledger := st.ledger ∪ entry.2.toFinset }

/-- One `gather` run over the (sorted) per-generation record lists, starting
from the loaded ledger set. -/
def gather (numBatches : List String → Nat)
    (model_gamedata : List (String × List String))
    (already_processed : Finset String) : GatherState :=
  model_gamedata.foldl (gatherStep numBatches) ⟨[], [], already_processed⟩

/-- The persisted ledger file content, one identifier per line:
`'\n'.join(sorted(already_processed))`, modelled as the sorted line list. -/
def ledgerLines (s : Finset String) : List String :=
  s.sort (· ≤ ·)

/-- Loading the ledger file back: `set(f.read().split())`. -/
def loadLedger (lines : List String) : Finset String :=
  lines.toFinset

theorem gatherStep_ledger_mono (numBatches : List String → Nat) (st : GatherState)
    (entry : String × List String) :
    st.ledger ⊆ (gatherStep numBatches st entry).ledger := by
  unfold gatherStep
  split
  · exact Finset.Subset.refl _
  · exact Finset.subset_union_left

theorem gatherFold_ledger_mono (numBatches : List String → Nat)
    (gd : List (String × List String)) (st : GatherState) :
    st.ledger ⊆ (gd.foldl (gatherStep numBatches) st).ledger := by
  induction gd generalizing st with
  | nil => exact Finset.Subset.refl _
  | cons e gd ih =>
      exact (gatherStep_ledger_mono numBatches st e).trans (ih (gatherStep numBatches st e))

theorem gatherStep_covers (numBatches : List String → Nat) (st : GatherState)
    (entry : String × List String) :
    entry.2.toFinset ⊆ (gatherStep numBatches st entry).ledger := by
  unfold gatherStep
  split
  · assumption
  · exact Finset.subset_union_right

theorem gatherFold_covers (numBatches : List String → Nat)
    (gd : List (String × List String)) (st : GatherState) :
    ∀ e ∈ gd, e.2.toFinset ⊆ (gd.foldl (gatherStep numBatches) st).ledger := by
  induction gd generalizing st with
  | nil => intro e he; simp at he
  | cons f gd ih =>
      intro e he
      rcases List.mem_cons.mp he with rfl | he'
      · exact (gatherStep_covers numBatches st e).trans
          (gatherFold_ledger_mono numBatches gd (gatherStep numBatches st e))
      · exact ih (gatherStep numBatches st f) e he'

theorem gatherFold_skips (numBatches : List String → Nat)
    (gd : List (String × List String)) (st : GatherState)
    (h : ∀ e ∈ gd, e.2.toFinset ⊆ st.ledger) :
    gd.foldl (gatherStep numBatches) st = st := by
  induction gd with
  | nil => rfl
  | cons f gd ih =>
      have hf : gatherStep numBatches st f = st := by
        unfold gatherStep
        rw [if_pos (h f (List.mem_cons_self f gd))]
      rw [List.foldl_cons, hf]
      exact ih fun e he => h e (List.mem_cons_of_mem f he)

/-- Claim C6: the ledger set persisted at the end of a gather run is a
superset of the ledger set loaded at its start — identifiers are only ever
added, never removed — and the persisted line set is exactly the final
in-memory ledger set. -/
theorem gather_ledger_monotone (numBatches : List String → Nat)
    (gd : List (String × List String)) (already_processed : Finset String) :
    already_processed ⊆ (gather numBatches gd already_processed).ledger
    ∧ loadLedger (ledgerLines (gather numBatches gd already_processed).ledger) =
        (gather numBatches gd already_processed).ledger := by
  constructor
  · exact gatherFold_ledger_mono numBatches gd ⟨[], [], already_processed⟩
  · exact Finset.sort_toFinset _ _

/-- Claim C1: a second gather run over an unchanged input tree, starting
from the ledger persisted by the first run, writes zero new chunk files,
feeds nothing to the shuffler, and leaves the ledger set unchanged. -/
theorem gather_idempotent (numBatches : List String → Nat)
    (gd : List (String × List String)) (already_processed : Finset String) :
    (gather numBatches gd
        (loadLedger (ledgerLines (gather numBatches gd already_processed).ledger))).chunks = []
    ∧ (gather numBatches gd
        (loadLedger (ledgerLines (gather numBatches gd already_processed).ledger))).fed = []
    ∧ (gather numBatches gd
        (loadLedger (ledgerLines (gather numBatches gd already_processed).ledger))).ledger =
        (gather numBatches gd already_processed).ledger := by
  have hload : loadLedger (ledgerLines (gather numBatches gd already_processed).ledger) =
      (gather numBatches gd already_processed).ledger := Finset.sort_toFinset _ _
  have hcov : ∀ e ∈ gd, e.2.toFinset ⊆
      (gather numBatches gd already_processed).ledger :=
    gatherFold_covers numBatches gd ⟨[], [], already_processed⟩
  have hskip : gather numBatches gd
      (loadLedger (ledgerLines (gather numBatches gd already_processed).ledger)) =
      ⟨[], [], loadLedger (ledgerLines (gather numBatches gd already_processed).ledger)⟩ :=
    gatherFold_skips numBatches gd
      ⟨[], [], loadLedger (ledgerLines (gather numBatches gd already_processed).ledger)⟩
      (fun e he => by
        show e.2.toFinset ⊆
          loadLedger (ledgerLines (gather numBatches gd already_processed).ledger)
        rw [hload]
        exact hcov e he)
  rw [hskip, hload]
  exact ⟨rfl, rfl, rfl⟩

/-- Claim C3 counterexample: with record files `a`, `b` for generation `m`
and `a` already in the ledger, the generation is not skipped, and the file
list fed into the shuffled chunking is the full list containing the
already-ledgered `a` — not just the not-yet-ledgered `b`. -/
theorem gather_refeeds_ledgered_file :
    (gather (fun _ => 1) [("m", ["a", "b"])] {"a"}).fed = [("m", ["a", "b"])]
    ∧ "a" ∈ ({"a"} : Finset String)
    ∧ "a" ∈ ["a", "b"] := by
  decide

/-- Claim C3 amended: every file list fed into the shuffled chunking is the
complete globbed record list of its generation, exactly as enumerated in the
input — including any files already in the ledger — never a filtered subset. -/
theorem gather_feeds_entire_generation (numBatches : List String → Nat)
    (gd : List (String × List String)) (already_processed : Finset String) :
    ∀ e ∈ (gather numBatches gd already_processed).fed, e ∈ gd := by
  have key : ∀ (gd' : List (String × List String)) (st : GatherState),
      ∀ e ∈ (gd'.foldl (gatherStep numBatches) st).fed, e ∈ st.fed ∨ e ∈ gd' := by
    intro gd'
    induction gd' with
    | nil => intro st e he; exact Or.inl he
    | cons f gd' ih =>
        intro st e he
        rcases ih (gatherStep numBatches st f) e he with hin | hin
        · unfold gatherStep at hin
          split at hin
          · exact Or.inl hin
          · rcases List.mem_append.mp hin with hin' | hin'
            · exact Or.inl hin'
            · simp at hin'
              exact Or.inr (by simp [hin'])
        · exact Or.inr (List.mem_cons_of_mem f hin)
  intro e he
  rcases key gd ⟨[], [], already_processed⟩ e he with h | h
  · simp at h
  · exact h

/-- Witness for the amended C3 at the counterexample input: the single fed
list is the generation's full record list as given. -/
theorem gather_feeds_entire_generation_witness :
    ("m", ["a", "b"]) ∈ [("m", ["a", "b"])] :=
  gather_feeds_entire_generation (fun _ => 1) [("m", ["a", "b"])] {"a"}
    ("m", ["a", "b"]) (by decide)

/-! ## Persistence trace of a gather run (C7)

Every file write in `gather` goes through `gfile.GFile(path, 'w')`: opening
a file in write mode truncates it in place, and the content is then written
to the same path — there is no temporary file and no rename anywhere in
`gather`.  A run is therefore a sequence of filesystem operations: per chunk
an open-truncate and a write, and, last of all, an open-truncate and a write
of `meta.txt` (main.py lines 226-227).  An interruption is a prefix of this
operation sequence; the state it leaves behind is the fold of the prefix
over the initial file contents. -/

/-- A filesystem operation of a gather run.  `openW` is `GFile(path, 'w')`:
it truncates the target in place.  `writeAll` appends the full content to
the (just truncated) target.  File contents are line lists. -/
inductive FsOp
  | openW (p : OutPath)
  | writeAll (p : OutPath) (lines : List String)
deriving DecidableEq

/-- The path an operation touches. -/
def opPath : FsOp → OutPath
  | .openW p => p
  | .writeAll p _ => p

/-- Effect of one operation on the store (path to optional content). -/
def applyOp (fs : OutPath → Option (List String)) : FsOp → OutPath → Option (List String)
  | .openW p, q => if q = p then some [] else fs q
  | .writeAll p ls, q => if q = p then some ((fs p).getD [] ++ ls) else fs q

/-- State of the store after a sequence of operations. -/
def runOps (fs : OutPath → Option (List String)) (ops : List FsOp) :
    OutPath → Option (List String) :=
  ops.foldl applyOp fs

/-- The chunk writes of a run, in write order (`write_tf_examples` per
batch; chunk payloads are irrelevant to the ledger claims). -/
def chunkWriteOps (chunks : List OutPath) : List FsOp :=
  chunks.flatMap fun c => [FsOp.openW c, FsOp.writeAll c []]

/-- The full operation sequence of one gather run: all chunk writes, then
the single in-place rewrite of `meta.txt` at the very end. -/
def gatherOps (numBatches : List String → Nat)
    (gd : List (String × List String)) (already_processed : Finset String) : List FsOp :=
  chunkWriteOps (gather numBatches gd already_processed).chunks ++
    [FsOp.openW OutPath.meta,
     FsOp.writeAll OutPath.meta (ledgerLines (gather numBatches gd already_processed).ledger)]

theorem runOps_preserves (fs : OutPath → Option (List String)) (ops : List FsOp)
    (q : OutPath) (h : ∀ op ∈ ops, opPath op ≠ q) :
    runOps fs ops q = fs q := by
  induction ops generalizing fs with
  | nil => rfl
  | cons op ops ih =>
      have hop : opPath op ≠ q := h op (List.mem_cons_self op ops)
      have hrest : ∀ o ∈ ops, opPath o ≠ q := fun o ho => h o (List.mem_cons_of_mem op ho)
      rw [runOps, List.foldl_cons]
      rw [show List.foldl applyOp (applyOp fs op) ops q = applyOp fs op q from
        ih (applyOp fs op) hrest]
      cases op with
      | openW p => simp only [applyOp]; rw [if_neg fun hq => hop hq.symm]
      | writeAll p ls => simp only [applyOp]; rw [if_neg fun hq => hop hq.symm]

theorem gather_chunks_not_meta (numBatches : List String → Nat)
    (gd : List (String × List String)) (already_processed : Finset String) :
    ∀ p ∈ (gather numBatches gd already_processed).chunks, p ≠ OutPath.meta := by
  have key : ∀ (gd' : List (String × List String)) (st : GatherState),
      (∀ p ∈ st.chunks, p ≠ OutPath.meta) →
      ∀ p ∈ (gd'.foldl (gatherStep numBatches) st).chunks, p ≠ OutPath.meta := by
    intro gd'
    induction gd' with
    | nil => intro st hst p hp; exact hst p hp
    | cons f gd' ih =>
        intro st hst p hp
        refine ih (gatherStep numBatches st f) ?_ p hp
        intro q hq
        unfold gatherStep at hq
        split at hq
        · exact hst q hq
        · rcases List.mem_append.mp hq with hq' | hq'
          · exact hst q hq'
          · rcases List.mem_map.mp hq' with ⟨i, _, rfl⟩
            intro hcontra
            exact OutPath.noConfusion hcontra
  intro p hp
  exact key gd ⟨[], [], already_processed⟩ (fun q hq => by simp at hq) p hp

theorem chunkWriteOps_paths (chunks : List OutPath)
    (h : ∀ p ∈ chunks, p ≠ OutPath.meta) :
    ∀ op ∈ chunkWriteOps chunks, opPath op ≠ OutPath.meta := by
  intro op hop
  rcases List.mem_flatMap.mp hop with ⟨c, hc, hmem⟩
  have hc' : c ≠ OutPath.meta := h c hc
  rcases List.mem_cons.mp hmem with rfl | hmem'
  · exact hc'
  · rcases List.mem_cons.mp hmem' with rfl | hmem''
    · exact hc'
    · simp at hmem''

theorem take_append_le {α : Type} (l₁ l₂ : List α) (k : Nat) (h : k ≤ l₁.length) :
    (l₁ ++ l₂).take k = l₁.take k := by
  induction l₁ generalizing k with
  | nil =>
      have : k = 0 := Nat.le_zero.mp h
      simp [this]
  | cons a l₁ ih =>
      cases k with
      | zero => rfl
      | succ k =>
          simp only [List.cons_append, List.take_succ_cons]
          rw [ih k (Nat.le_of_succ_le_succ h)]

/-- Claim C7 counterexample: in a run whose final ledger has two entries,
the interruption point between the truncating open of `meta.txt` and its
write leaves the ledger file empty — neither the previously persisted
one-line ledger nor the new two-line one. -/
theorem gather_ledger_write_not_atomic :
    runOps (fun q => if q = OutPath.meta then some ["a"] else none)
        ((gatherOps (fun _ => 1) [("m", ["b"])] {"a"}).take 3) OutPath.meta = some []
    ∧ (fun q => if q = OutPath.meta then some ["a"] else none) OutPath.meta = some ["a"]
    ∧ some ([] : List String) ≠ some ["a"]
    ∧ (ledgerLines (gather (fun _ => 1) [("m", ["b"])] {"a"}).ledger).length = 2 := by
  refine ⟨by decide, by decide, by decide, ?_⟩
  rw [ledgerLines, Finset.length_sort]
  decide

/-- Claim C7 amended: the ledger is persisted by a single in-place
truncate-and-write of `meta.txt` at the very end of the run (no rename): an
interruption at any point up to and including the last chunk write leaves
the previously persisted ledger untouched, and only the completed final
write replaces it with the new ledger lines. -/
theorem gather_ledger_intact_before_final_write (numBatches : List String → Nat)
    (gd : List (String × List String)) (already_processed : Finset String)
    (fs : OutPath → Option (List String)) (k : Nat)
    (hk : k ≤ (chunkWriteOps (gather numBatches gd already_processed).chunks).length) :
    runOps fs ((gatherOps numBatches gd already_processed).take k) OutPath.meta =
      fs OutPath.meta
    ∧ runOps fs (gatherOps numBatches gd already_processed) OutPath.meta =
        some (ledgerLines (gather numBatches gd already_processed).ledger) := by
  constructor
  · rw [gatherOps, take_append_le _ _ k hk]
    apply runOps_preserves
    intro op hop
    exact chunkWriteOps_paths _
      (gather_chunks_not_meta numBatches gd already_processed) op
      (List.mem_of_mem_take hop)
  · rw [gatherOps, runOps, List.foldl_append]
    simp [applyOp]

/-- Witness for the amended C7: at the counterexample run, a crash point
before the ledger rewrite preserves the old ledger, and the completed run
persists the new one. -/
theorem gather_ledger_intact_witness :
    runOps (fun q => if q = OutPath.meta then some ["a"] else none)
        ((gatherOps (fun _ => 1) [("m", ["b"])] {"a"}).take 2) OutPath.meta = some ["a"]
    ∧ runOps (fun q => if q = OutPath.meta then some ["a"] else none)
        (gatherOps (fun _ => 1) [("m", ["b"])] {"a"}) OutPath.meta =
        some (ledgerLines (gather (fun _ => 1) [("m", ["b"])] {"a"}).ledger) := by
  have h := gather_ledger_intact_before_final_write (fun _ => 1) [("m", ["b"])] {"a"}
    (fun q => if q = OutPath.meta then some ["a"] else none) 2 (by decide)
  exact ⟨h.1.trans (by decide), h.2⟩

/-! ## Training-window selection (`train_dir` / `train`, main.py lines 88-108)

```
tf_records = sorted(gfile.Glob(os.path.join(chunk_dir, '*.tfrecord.zz')))
tf_records = tf_records[-1 * (WINDOW_SIZE // EXAMPLES_PER_RECORD):]
train(working_dir, tf_records, model_save_path, generation_num)
```
and `train` begins with `print("Training on:", tf_records[0], "to",
tf_records[-1])`, which raises `IndexError` on an empty list before any
training step runs.  The chunk directory is modelled by its globbed file
list. -/

/-- How many positions are aggregated per chunk (main.py line 39). -/
def EXAMPLES_PER_RECORD : Nat := 10000

/-- How many positions the training window may hold (main.py line 43). -/
def WINDOW_SIZE : Nat := 125000000

/-- Python `sorted` on a string list: name order. -/
def pySorted (l : List String) : List String :=
  l.insertionSort (· ≤ ·)

/-- Python `l[-n:]` for the tail slice of `train_dir`: the last `n`
entries, the whole list when fewer exist — and also the whole list when
`n = 0`, since `l[0:]` is `l`. -/
def pySliceLast {α : Type} (n : Nat) (l : List α) : List α :=
  if n = 0 then l else l.drop (l.length - n)

/-- The training-window selection of `train_dir` (main.py lines 93-94). -/
def train_dir_window (chunk_files : List String) : List String :=
  pySliceLast (WINDOW_SIZE / EXAMPLES_PER_RECORD) (pySorted chunk_files)

/-- Observable steps of a successful `train` call (main.py lines 99-108). -/
inductive TrainStep
  | printRange (first last : String)
  | trainNetwork
  | exportModel
  | freezeGraph
deriving DecidableEq

/-- The `train` command: prints the record range, then trains, exports and
freezes.  On an empty record list `tf_records[0]` raises `IndexError`
before any training step. -/
def train (tf_records : List String) : Except String (List TrainStep) :=
  match tf_records.head?, tf_records.getLast? with
  | some first, some last =>
      Except.ok [TrainStep.printRange first last, TrainStep.trainNetwork,
        TrainStep.exportModel, TrainStep.freezeGraph]
  | _, _ => Except.error "IndexError: list index out of range"

/-- The `train_dir` command: select the window from the chunk directory's
file list and hand it to `train`. -/
def train_dir (chunk_files : List String) : Except String (List TrainStep) :=
  train (train_dir_window chunk_files)

/-- Claim C2: `train_dir` selects exactly the tail of the name-sorted chunk
list whose length is the lesser of `WINDOW_SIZE // EXAMPLES_PER_RECORD`
(which is 12500) and the number of chunk files; in particular it never
selects more than `WINDOW_SIZE // EXAMPLES_PER_RECORD` chunks, and it keeps
every chunk file when fewer exist. -/
theorem train_dir_window_bound (chunk_files : List String) :
    (train_dir_window chunk_files).length =
      min (WINDOW_SIZE / EXAMPLES_PER_RECORD) chunk_files.length
    ∧ (train_dir_window chunk_files).length ≤ WINDOW_SIZE / EXAMPLES_PER_RECORD
    ∧ train_dir_window chunk_files <:+ pySorted chunk_files
    ∧ (pySorted chunk_files).length = chunk_files.length
    ∧ WINDOW_SIZE / EXAMPLES_PER_RECORD = 12500 := by
  have hsort : (pySorted chunk_files).length = chunk_files.length :=
    List.length_insertionSort _ _
  have hw : WINDOW_SIZE / EXAMPLES_PER_RECORD = 12500 := by decide
  have hwin : train_dir_window chunk_files =
      (pySorted chunk_files).drop
        ((pySorted chunk_files).length - WINDOW_SIZE / EXAMPLES_PER_RECORD) := by
    rw [train_dir_window, pySliceLast, if_neg (by rw [hw]; decide)]
  refine ⟨?_, ?_, ?_, hsort, hw⟩
  · rw [hwin, List.length_drop, hsort]
    omega
  · rw [hwin, List.length_drop, hsort]
    omega
  · rw [hwin]
    exact List.drop_suffix _ _

/-- Claim C8: when the selected training window is empty, `train_dir` fails
with the index error raised before any training step, and `train` can only
proceed on a nonempty record list — training never starts with zero chunk
files. -/
theorem train_dir_empty_window_fails (chunk_files : List String)
    (h : train_dir_window chunk_files = []) :
    train_dir chunk_files = Except.error "IndexError: list index out of range"
    ∧ ∀ (recs : List String) (steps : List TrainStep),
        train recs = Except.ok steps → recs ≠ [] := by
  constructor
  · rw [train_dir, h]
    rfl
  · intro recs steps hok hempty
    rw [hempty] at hok
    simp [train] at hok

/-- Witness for C8: the empty chunk directory yields the index error, and a
one-record list is accepted by `train`, which is therefore not trivially
failing. -/
theorem train_dir_empty_window_witness :
    train_dir [] = Except.error "IndexError: list index out of range"
    ∧ (["x"] : List String) ≠ [] :=
  ⟨(train_dir_empty_window_fails [] (by decide)).1,
   (train_dir_empty_window_fails [] (by decide)).2 ["x"]
     [TrainStep.printRange "x" "x", TrainStep.trainNetwork,
      TrainStep.exportModel, TrainStep.freezeGraph] (by rfl)⟩

/-! ## Holdout routing of one self-play game (`selfplay`, main.py lines 166-181)

```
output_name = '[timestamp]-[hostname]'
game_data = player.extract_data()
...
tf_examples = preprocessing.make_dataset_from_selfplay(game_data)

# Hold out 5% of games for evaluation.
if random.random() < holdout_pct:
    fname = os.path.join(holdout_dir, "[output_name].tfrecord.zz")
else:
    fname = os.path.join(output_dir, "[output_name].tfrecord.zz")

preprocessing.write_tf_examples(fname, tf_examples)
```
One value is drawn from the random stream, and the single write that
follows sends the entire example list of the game to the file the draw
selected.  The random stream is modelled as a list of rationals (each float
returned by `random.random()` is an exact rational); the examples of the
game are opaque. -/

/-- The example file a game's data is written to. -/
inductive ExampleFile
  | holdoutFile (name : String)
  | trainingFile (name : String)
deriving DecidableEq

/-- Default of the `holdout_pct` argument of `selfplay` (main.py line 152). -/
def holdout_pct_default : ℚ := 5 / 100

/-- The holdout routing tail of `selfplay`: consume one value from the
random stream, choose the destination file by comparing it with
`holdout_pct`, and perform the single write of all the game's examples to
that file.  Returns the write list and the unconsumed stream; `none` only
when the stream is exhausted (which `random.random()` never is). -/
def selfplay {α : Type} (rng : List ℚ) (holdout_pct : ℚ) (output_name : String)
    (tf_examples : List α) : Option (List (ExampleFile × List α) × List ℚ) :=
  match rng with
  | [] => none
  | r :: rest =>
      let fname := if r < holdout_pct then ExampleFile.holdoutFile output_name
        else ExampleFile.trainingFile output_name
      some ([(fname, tf_examples)], rest)

/-- Claim C9: the holdout decision of one self-play game is a single
Bernoulli draw: exactly one random value is consumed however many examples
the game has, there is exactly one write, it carries the game's entire
example list, and its destination is the holdout file exactly when the
drawn value is below `holdout_pct` (whose default is 0.05), the training
file otherwise. -/
theorem selfplay_single_draw_routes_game {α : Type} (r : ℚ) (rest : List ℚ)
    (holdout_pct : ℚ) (output_name : String) (tf_examples : List α) :
    selfplay (r :: rest) holdout_pct output_name tf_examples =
      some ([((if r < holdout_pct then ExampleFile.holdoutFile output_name
          else ExampleFile.trainingFile output_name), tf_examples)], rest)
    ∧ ((r < holdout_pct ∧
          selfplay (r :: rest) holdout_pct output_name tf_examples =
            some ([(ExampleFile.holdoutFile output_name, tf_examples)], rest))
        ∨ (¬ r < holdout_pct ∧
          selfplay (r :: rest) holdout_pct output_name tf_examples =
            some ([(ExampleFile.trainingFile output_name, tf_examples)], rest)))
    ∧ holdout_pct_default = 1 / 20 := by
  refine ⟨rfl, ?_, by norm_num [holdout_pct_default]⟩
  by_cases hr : r < holdout_pct
  · exact Or.inl ⟨hr, by simp [selfplay, hr]⟩
  · exact Or.inr ⟨hr, by simp [selfplay, hr]⟩

end Minigo
